import Mathlib

/-!
Shallow embedding of the DeeplyTough dataset-evaluation pipeline
(`deeplytough/misc/utils.py`, `deeplytough/datasets/toughm1.py`,
`deeplytough/datasets/prospeccts.py`).

Python floats are modelled by `ℚ` together with an explicit non-finite
marker (`MScore`), python strings by `String`, python dicts either by
lookup functions `String → Option α` or by association lists with python's
insertion-order update semantics, and python exceptions by `Option`/`Except`.
Network calls (`requests.get`, `urllib`) and subprocess invocations are
external collaborators; they enter the embedding as explicit oracle
parameters describing their observable outcome.
-/

namespace DeeplyTough

/-- A score returned by a matcher: either a finite float (modelled by `ℚ`)
or a non-finite float (NaN, +inf or -inf), for which `np.isfinite` is false.
The three non-finite kinds are not distinguished because the evaluation code
only ever tests finiteness. -/
inductive MScore where
  | fin (q : ℚ)
  | nonfin
deriving DecidableEq, Repr

/-- `np.isfinite` on a single score. -/
def MScore.isFinite : MScore → Bool
  | fin _ => true
  | nonfin => false

/-- The numeric values of the finite scores of a list, in order.  Used to
hand a list of scores all of which are known to be finite over to the
(purely numeric) metric routines. -/
def finVals (s : List MScore) : List ℚ :=
  s.filterMap fun m => match m with | .fin q => some q | .nonfin => none

/-! ### voc_ap (misc/utils.py)

`voc_ap(rec, prec)` appends sentinels, runs a backward in-place maximum
loop over the precision array, and sums `Δrecall × precision` at the recall
breakpoints. -/

/-- The backward in-place loop
`for i in range(mpre.size - 1, 0, -1): mpre[i-1] = max(mpre[i-1], mpre[i])`
of `voc_ap`: the tail is processed first and each element is replaced by the
maximum of itself and the (already processed) head of the tail. -/
def envLoop : List ℚ → List ℚ
  | [] => []
  | [x] => [x]
  | x :: y :: rest =>
    match envLoop (y :: rest) with
    | [] => [x]
    | z :: zs => max x z :: z :: zs

/-- `np.sum((mrec[i+1] - mrec[i]) * mpre[i+1])` over the indices `i` with
`mrec[1:] != mrec[:-1]` (`np.where` of the element-wise comparison), walking
the two arrays in lock-step. -/
def sumDeltas : List ℚ → List ℚ → ℚ
  | r0 :: r1 :: rs, _p0 :: p1 :: ps =>
    (if r1 ≠ r0 then (r1 - r0) * p1 else 0) + sumDeltas (r1 :: rs) (p1 :: ps)
  | _, _ => 0

/-- `voc_ap` from `misc/utils.py`: sentinels `mrec = [0] + rec + [1]`,
`mpre = [0] + prec + [0]`, precision envelope by the backward maximum loop,
then the breakpoint sum. -/
def voc_ap (rec prec : List ℚ) : ℚ :=
  let mrec := 0 :: (rec ++ [1])
  let mpre := envLoop (0 :: (prec ++ [0]))
  sumDeltas mrec mpre

/-- Spec-side precision envelope: each precision is replaced by the maximum
of itself and all precisions at higher recall, i.e. position `i` receives the
maximum of the suffix starting at `i`. -/
def envSpec (l : List ℚ) : List ℚ :=
  (List.range l.length).map fun i => ((l.drop i).max?).getD 0

/-- Spec-side `voc_ap`: the documented envelope formula, with the breakpoint
sum written as a `Finset.range` sum of `Δrecall × envelope-precision at the
higher recall`, restricted to the indices where the recall changes value. -/
def voc_ap_spec (rec prec : List ℚ) : ℚ :=
  let mrec := 0 :: (rec ++ [1])
  let mpre := envSpec (0 :: (prec ++ [0]))
  Finset.sum (Finset.range (mrec.length - 1)) fun i =>
    if mrec.getD (i + 1) 0 ≠ mrec.getD i 0
    then (mrec.getD (i + 1) 0 - mrec.getD i 0) * mpre.getD (i + 1) 0
    else 0

/-! ### RcsbPdbClusters.get_seqclust (misc/utils.py) -/

/-- Python's `str.upper()` as used on PDB codes and chain letters
(ASCII-faithful character-wise uppercasing). -/
def str_upper (s : String) : String := ⟨s.data.map Char.toUpper⟩

/-- Python's `str.lower()` (ASCII-faithful character-wise lowercasing). -/
def str_lower (s : String) : String := ⟨s.data.map Char.toLower⟩

/-- The query key `f"{pdbCode.upper()}_{chainId.upper()}"` built by
`get_seqclust`, e.g. `1ATP_I`. -/
def query_str (pdbCode chainId : String) : String :=
  str_upper pdbCode ++ "_" ++ str_upper chainId

/-- `RcsbPdbClusters.get_seqclust`.  `clusters` is the loaded cluster map
(`self.clusters`, a dict; `none` models the `'None'` sentinel default of
`dict.get`), `oracle` models the external `pdb_check_obsolete` collaborator
(`some s` = the entry is obsolete and superseded by `s`; `none` = not
obsolete or the status service failed).  The recursive retry is made with
`check_obsolete=False`, so at most one redirection hop is ever taken;
termination is by the `Bool` flag. -/
def get_seqclust (clusters : String → Option ℕ) (oracle : String → Option String)
    (pdbCode chainId : String) : Bool → Option ℕ
  | false => clusters (query_str pdbCode chainId)
  | true =>
    let seqclust := clusters (query_str pdbCode chainId)
    if seqclust = none then
      match oracle pdbCode with
      | some superceded => get_seqclust clusters oracle superceded chainId false
      | none => seqclust
    else seqclust
termination_by b => (if b then 1 else 0)
decreasing_by simp

/-! ### Log messages

Only the log records that the evaluation/resolution logic emits are
modelled, as an explicit value (python logs through the `logging` module
as a side effect). -/

/-- A log record emitted by the pipeline. -/
inductive LogMsg where
  | detectionEntryMissing (id1 id2 : String)
  | ignoringPairs (n : ℕ)
  | duplicateAccession (newId oldId : String)
  | duplicateChain (famId : String)
  | noUniprotFound (code chain : String)
deriving DecidableEq, Repr

/-! ### Entries and pair building -/

/-- A descriptor entry.  The python dicts additionally carry file-path and
enrichment fields (`protein`, `pocket`, `ligand`, `uniprot`, ...) which the
pair-building and evaluation logic never reads; only the `code5` key (the
one used to build `target_dict`) and the entry's identity are modelled. -/
structure Entry where
  code5 : String
deriving DecidableEq, Repr

/-- `target_dict = {d['code5']: d for d in descriptor_entries}`: a python
dict comprehension, so a later entry with the same `code5` overwrites an
earlier one. -/
def target_dict (entries : List Entry) : String → Option Entry :=
  entries.foldl (fun m d => fun k => if k = d.code5 then some d else m k) (fun _ => none)

namespace ToughM1

/-- `parse_file_list` from `ToughM1.evaluate_matching`: each line yields its
first two whitespace tokens `id1, id2` (modelled as a pre-split pair); the
pair is appended iff both ids are keys of `target_dict`. -/
def parse_file_list (dict : String → Option Entry) : List (String × String) → List (Entry × Entry)
  | [] => []
  | (id1, id2) :: rest =>
    match dict id1, dict id2 with
    | some e1, some e2 => (e1, e2) :: parse_file_list dict rest
    | _, _ => parse_file_list dict rest

end ToughM1

namespace Prospeccts

/-- The pair-building loop of `Prospeccts.evaluate_matching`: each CSV line
yields `id1, id2, cls` (modelled as a pre-split triple with `cls` already
stripped, mirroring `tokens[2].strip()`); the pair is appended together
with its label `cls == 'active'` iff both ids resolve, otherwise a warning
is logged. -/
def build_pairs (dict : String → Option Entry) :
    List (String × String × String) → List (Entry × Entry) × List Bool × List LogMsg
  | [] => ([], [], [])
  | (id1, id2, cls) :: rest =>
    let r := build_pairs dict rest
    match dict id1, dict id2 with
    | some e1, some e2 => ((e1, e2) :: r.1, (cls == "active") :: r.2.1, r.2.2)
    | _, _ => (r.1, r.2.1, LogMsg.detectionEntryMissing id1 id2 :: r.2.2)

end Prospeccts

/-! ### Metric routines

Modelled from the spec: `roc_curve`, `roc_auc_score` and
`precision_recall_curve` are sklearn routines, external collaborators not
part of this repository ("the underlying ROC/AUC routine").  Each is a
computable model of the sklearn function's documented behaviour: a `none`
result models the `ValueError`/`IndexError` the sklearn routine raises
(empty input for the curves, fewer than two label classes for the AUC).
Curve points are taken at every distinct score threshold without sklearn's
`drop_intermediate` point-thinning, and a denominator of zero (a label
class entirely absent, where sklearn emits NaN values and a warning but
does not raise) yields `0` under `ℚ` division. -/

/-- Modelled from the spec: sklearn `roc_curve` — raises on empty input,
otherwise returns (fpr, tpr, thresholds) at each distinct threshold in
decreasing order. -/
def roc_curve (y : List Bool) (s : List ℚ) : Option (List ℚ × List ℚ × List ℚ) :=
  if y = [] ∨ s = [] then none
  else
    let zs := y.zip s
    let P : ℚ := (y.countP fun b => b : ℕ)
    let N : ℚ := (y.countP fun b => !b : ℕ)
    let ths := (List.insertionSort (· ≥ ·) s).dedup
    some (ths.map fun t => ((zs.countP fun p => !p.1 && decide (t ≤ p.2) : ℕ) : ℚ) / N,
          ths.map fun t => ((zs.countP fun p => p.1 && decide (t ≤ p.2) : ℕ) : ℚ) / P,
          ths)

/-- Modelled from the spec: sklearn `roc_auc_score` — the standard ROC-AUC
(probability that a uniformly random positive outscores a uniformly random
negative, ties counting one half); raises (`none`) unless both a positive
and a negative label are present. -/
def roc_auc_score (y : List Bool) (s : List ℚ) : Option ℚ :=
  if y.contains true ∧ y.contains false then
    let zs := y.zip s
    let pos := zs.filterMap fun p => if p.1 then some p.2 else none
    let neg := zs.filterMap fun p => if p.1 then none else some p.2
    some ((pos.map fun sp =>
            (neg.map fun sn => if sn < sp then (1 : ℚ) else if sn = sp then 1 / 2 else 0).sum).sum
          / ((pos.length : ℚ) * (neg.length : ℚ)))
  else none

/-- Modelled from the spec: sklearn `precision_recall_curve` — raises on
empty input, otherwise returns precision/recall at each distinct threshold
in increasing order with a final sentinel point of precision 1 and
recall 0. -/
def precision_recall_curve (y : List Bool) (s : List ℚ) :
    Option (List ℚ × List ℚ × List ℚ) :=
  if y = [] ∨ s = [] then none
  else
    let zs := y.zip s
    let P : ℚ := (y.countP fun b => b : ℕ)
    let ths := (List.insertionSort (· ≤ ·) s).dedup
    let tp : ℚ → ℚ := fun t => ((zs.countP fun p => p.1 && decide (t ≤ p.2) : ℕ) : ℚ)
    let pp : ℚ → ℚ := fun t => ((zs.countP fun p => decide (t ≤ p.2) : ℕ) : ℚ)
    some ((ths.map fun t => tp t / pp t) ++ [1], (ths.map fun t => tp t / P) ++ [0], ths)

/-! ### The metric block shared by both `evaluate_matching` methods -/

/-- `np.flatnonzero(np.isfinite(np.array(scores)))`: the (ascending) list
of indices holding a finite score. -/
def goodidx (scores : List MScore) : List ℕ :=
  (scores.enum.filter fun p => p.2.isFinite).map Prod.fst

/-- The metric fields of an evaluation result. -/
structure Metrics where
  ap : ℚ
  pr : List ℚ
  re : List ℚ
  th : List ℚ
  auc : ℚ
  fpr : List ℚ
  tpr : List ℚ
  th_roc : List ℚ
deriving DecidableEq, Repr

/-- The four metric-computing statements of `evaluate_matching` (the ROC
curve, the ROC AUC, the precision-recall curve, and `voc_ap` on the
reversed recall/precision arrays), on the cleaned labels and scores; a
`none` result models the exception the first failing metric routine
raises, which aborts `evaluate_matching`. -/
def metric_match (y : List Bool) (vals : List ℚ) : Option Metrics :=
  match roc_curve y vals, roc_auc_score y vals, precision_recall_curve y vals with
  | some (fpr, tpr, th_roc), some auc, some (prc, rcl, th) =>
    some { ap := voc_ap rcl.reverse prc.reverse, pr := prc, re := rcl, th := th,
           auc := auc, fpr := fpr, tpr := tpr, th_roc := th_roc }
  | _, _, _ => none

/-- The metric block of `evaluate_matching` (identical in
`prospeccts.py` and `toughm1.py`): drop non-finite scores (via `goodidx`
index selection, logging a warning with the count when anything is
dropped), then run the metric computations on the cleaned arrays. -/
def compute_metrics (positives : List Bool) (scores : List MScore) :
    Option Metrics × List LogMsg :=
  let good := goodidx scores
  let cleaned : List Bool × List MScore × List LogMsg :=
    if good.length ≠ scores.length then
      (good.filterMap fun i => positives[i]?, good.filterMap fun i => scores[i]?,
       [LogMsg.ignoringPairs (scores.length - good.length)])
    else (positives, scores, [])
  (metric_match cleaned.1 (finVals cleaned.2.1), cleaned.2.2)

/-- The `results` dict returned by `evaluate_matching`. -/
structure EvalResult where
  ap : ℚ
  pr : List ℚ
  re : List ℚ
  th : List ℚ
  auc : ℚ
  fpr : List ℚ
  tpr : List ℚ
  th_roc : List ℚ
  pairs : List (Entry × Entry)
  scores : List MScore
  pos_mask : List Bool
deriving DecidableEq, Repr

namespace Prospeccts

/-- `Prospeccts.evaluate_matching`: build the pair list and labels from the
CSV listing against `target_dict`, score all pairs with one batch call to
the matcher, run the metric block, and return the results dict which echoes
the full unfiltered `pairs`, `scores` and `pos_mask`. -/
def evaluate_matching (descriptor_entries : List Entry)
    (lines : List (String × String × String))
    (matcher : List (Entry × Entry) → List MScore) : Option EvalResult × List LogMsg :=
  let built := build_pairs (target_dict descriptor_entries) lines
  let scores := matcher built.1
  let m := compute_metrics built.2.1 scores
  (m.1.map fun mm =>
    { ap := mm.ap, pr := mm.pr, re := mm.re, th := mm.th, auc := mm.auc, fpr := mm.fpr,
      tpr := mm.tpr, th_roc := mm.th_roc,
      pairs := built.1, scores := scores, pos_mask := built.2.1 },
   built.2.2 ++ m.2)

end Prospeccts

namespace ToughM1

/-- `ToughM1.evaluate_matching`: positive pairs come from the positive
listing, negative pairs from the negative listing (each kept only when both
ids resolve), labels are `True`/`False` blocks of the respective lengths;
then the same metric block and results dict as for Prospeccts. -/
def evaluate_matching (descriptor_entries : List Entry)
    (posLines negLines : List (String × String))
    (matcher : List (Entry × Entry) → List MScore) : Option EvalResult × List LogMsg :=
  let dict := target_dict descriptor_entries
  let pos_pairs := parse_file_list dict posLines
  let neg_pairs := parse_file_list dict negLines
  let pairs := pos_pairs ++ neg_pairs
  let positives := List.replicate pos_pairs.length true ++ List.replicate neg_pairs.length false
  let scores := matcher pairs
  let m := compute_metrics positives scores
  (m.1.map fun mm =>
    { ap := mm.ap, pr := mm.pr, re := mm.re, th := mm.th, auc := mm.auc, fpr := mm.fpr,
      tpr := mm.tpr, th_roc := mm.th_roc,
      pairs := pairs, scores := scores, pos_mask := positives }, m.2)

/-! ### Accession resolution (toughm1.py `pdb_chain_to_uniprot`) -/

/-- One step of the scan of `pdb_chain_to_uniprot` over a single
`(fam_id, chain_id)` mapping record: on a chain match, warn if a different
accession had already been found, then unconditionally overwrite the
result with the current accession. -/
def accession_step (query_chain_id : String) (acc : Option String × List LogMsg)
    (pc : String × String) : Option String × List LogMsg :=
  if pc.2 = query_chain_id then
    match acc.1 with
    | some r =>
      if pc.1 ≠ r then (some pc.1, acc.2 ++ [LogMsg.duplicateAccession pc.1 r])
      else (some pc.1, acc.2)
    | none => (some pc.1, acc.2)
  else acc

/-- `pdb_chain_to_uniprot(pdb_code, query_chain_id)` (the inner function of
`ToughM1._preprocess_worker`), given the decoded uniprot-mapping response
`fam` for `pdb_code` as an ordered list of `(fam_id, chain ids of its
mappings)` records (python dicts preserve insertion order).  The nested
`for fam_id / for chain` loops are the fold over the flattened records; a
`none` result models the `'None'` sentinel, which is also warned about. -/
def pdb_chain_to_uniprot (pdb_code : String) (fam : List (String × List String))
    (query_chain_id : String) : Option String × List LogMsg :=
  let scan := (fam.flatMap fun p => p.2.map fun c => (p.1, c)).foldl
    (accession_step query_chain_id) (none, [])
  match scan.1 with
  | none => (none, scan.2 ++ [LogMsg.noUniprotFound pdb_code query_chain_id])
  | some r => (some r, scan.2)

/-- The accessions of the flattened mapping records whose chain id equals
the query chain, in scan order (characterisation used by the duplicate
handling theorems). -/
def matching_accessions (fam : List (String × List String)) (q : String) : List String :=
  ((fam.flatMap fun p => p.2.map fun c => (p.1, c)).filter fun pc => pc.2 == q).map Prod.fst

end ToughM1

namespace Prospeccts

/-- Python `set.add`, modelled on insertion-ordered lists: a member is not
added twice. -/
def setAdd (l : List String) (x : String) : List String :=
  if x ∈ l then l else l ++ [x]

/-- One step of the accession scan of
`Prospeccts._extract_pocket_and_get_uniprot` over a `(fam_id, chain_id)`
record: with an empty query chain every accession is added; otherwise a
matching chain adds the accession to the result set, warning when the set
already holds a different accession (`next(iter(result))` of the CPython
set is modelled as the first inserted element). -/
def uniprot_step (query_chain_id : String) (acc : List String × List LogMsg)
    (pc : String × String) : List String × List LogMsg :=
  if query_chain_id = "" then (setAdd acc.1 pc.1, acc.2)
  else if pc.2 = query_chain_id then
    match acc.1 with
    | [] => (setAdd acc.1 pc.1, acc.2)
    | r :: _ =>
      if pc.1 ≠ r then (setAdd acc.1 pc.1, acc.2 ++ [LogMsg.duplicateChain pc.1])
      else (setAdd acc.1 pc.1, acc.2)
  else acc

/-- The accession-collection part of
`Prospeccts._extract_pocket_and_get_uniprot` (step 2): the `result` set
accumulated over the flattened `(fam_id, chain_id)` mapping records. -/
def uniprot_result (fam : List (String × List String)) (query_chain_id : String) :
    List String × List LogMsg :=
  (fam.flatMap fun p => p.2.map fun c => (p.1, c)).foldl
    (uniprot_step query_chain_id) ([], [])

/-- First-occurrence deduplication (the contents of a python set that was
filled by successive `add` calls, in insertion order). -/
def dedup_keep_first (l : List String) : List String := l.foldl setAdd []

/-- The accessions the prospeccts scan would add, with multiplicity, in scan
order: every accession when the query chain is empty, else the accessions
of the records whose chain matches. -/
def added_accessions (fam : List (String × List String)) (q : String) : List String :=
  ((fam.flatMap fun p => p.2.map fun c => (p.1, c)).filter
    fun pc => if q = "" then true else pc.2 == q).map Prod.fst

end Prospeccts

/-! ### Preprocessing (toughm1.py `_preprocess_worker` / `preprocess_once`)

The worker calls several external collaborators: `fpocket2` via
`subprocess.run`, the RCSB download via `urllib`, Bio.PDB parsing and
centroid geometry via numpy, and the uniprot mapping service via
`requests`.  Their observable outcomes enter the embedding through a
`WorkerEnv` record; the obsolete-status service is the same `oracle` as in
`get_seqclust`.  A `.error` models an exception escaping the worker (which
`concurrent.futures` re-raises in the parent when the corresponding result
is consumed, aborting `preprocess_once`). -/

/-- An exception escaping `_preprocess_worker`. -/
inductive WErr where
  | fpocketFailed
  | emptyChains
  | uniprotHttpFailure
deriving DecidableEq, Repr

/-- Observable outcomes of the worker's external collaborators:
whether the `fpocket2` subprocess fails (`CalledProcessError`, which the
worker logs and re-raises); the downloaded original structure as the list
of its chains with at least 20 residues, each with its centroid distance to
the TOUGH structure (`none` = the download raised, which the worker
catches); and the decoded uniprot-mapping response (`none` = the request,
its JSON decoding or the key lookup raised, which the worker does not
catch). -/
structure WorkerEnv where
  fpocketFails : Bool
  download : Option (List (String × ℚ))
  fam : Option (List (String × List String))

/-- `ids[np.argmin(dists)]` together with `np.min(dists)`: the first pair
attaining the minimal distance (`none` on an empty list, where `np.argmin`
raises). -/
def argmin_chain : List (String × ℚ) → Option (String × ℚ)
  | [] => none
  | [p] => some p
  | p :: q :: rest =>
    match argmin_chain (q :: rest) with
    | some m => if p.2 ≤ m.2 then some p else some m
    | none => some p

namespace ToughM1

/-- `ToughM1._preprocess_worker` for the entry with the given `code5`
(`code = code5[:4]`): re-raises an `fpocket2` failure; converts a download
failure, and a best chain match farther than 5, to the
`[code5, 'None', 'None']` sentinel row; raises when `np.argmin` sees no
candidate chains or when the uniprot mapping request fails; otherwise
returns `[code5, uniprot, pdb_code.lower() + chain_id]` where `pdb_code`
is the superseding code if the entry is obsolete. -/
def preprocess_worker (oracle : String → Option String) (env : WorkerEnv) (code5 : String) :
    Except WErr (String × Option String × String) :=
  if env.fpocketFails then .error .fpocketFailed
  else
    let code := code5.take 4
    let pdb_code := match oracle code with | some s => s | none => str_lower code
    match env.download with
    | none => .ok (code5, none, "None")
    | some chains =>
      match argmin_chain chains with
      | none => .error .emptyChains
      | some cm =>
        if 5 < cm.2 then .ok (code5, none, "None")
        else
          match env.fam with
          | none => .error .uniprotHttpFailure
          | some fam =>
            .ok (code5, (pdb_chain_to_uniprot (str_lower pdb_code) fam cm.1).1,
                 str_lower pdb_code ++ cm.1)

end ToughM1

/-- Python dict assignment `d[k] = v` on an insertion-ordered association
list: overwrite in place if the key is present, else append. -/
def dict_insert {κ α : Type} [DecidableEq κ] : List (κ × α) → κ → α → List (κ × α)
  | [], k, v => [(k, v)]
  | (k0, v0) :: rest, k, v =>
    if k0 = k then (k0, v) :: rest else (k0, v0) :: dict_insert rest k v

/-- Python dict lookup with a default (`defaultdict` read). -/
def dict_getD {κ α : Type} [DecidableEq κ] (l : List (κ × α)) (k : κ) (d : α) : α :=
  ((l.find? fun p => decide (p.1 = k)).map fun p => p.2).getD d

/-- The three mappings `preprocess_once` accumulates and pickles. -/
structure PreprocResult where
  code5_to_uniprot : List (String × Option String)
  uniprot_to_code5 : List (Option String × List String)
  code5_to_seqclust : List (String × Option ℕ)
deriving DecidableEq, Repr

namespace ToughM1

/-- The result-consuming loop of `ToughM1.preprocess_once` over
`executor.map(ToughM1._preprocess_worker, entries)`: results arrive in
input order; the first worker exception is re-raised in the parent and
aborts the loop (nothing is pickled); each successful row updates the three
mappings, the sequence cluster coming from
`clusterer.get_seqclust(code5new[:4], code5new[4:5])`. -/
def preprocess_loop (clusters : String → Option ℕ) (oracle : String → Option String)
    (acc : PreprocResult) : List (WorkerEnv × String) → Except WErr PreprocResult
  | [] => .ok acc
  | (env, code5) :: rest =>
    match preprocess_worker oracle env code5 with
    | .error e => .error e
    | .ok r =>
      preprocess_loop clusters oracle
        { code5_to_uniprot := dict_insert acc.code5_to_uniprot r.1 r.2.1,
          uniprot_to_code5 := dict_insert acc.uniprot_to_code5 r.2.1
            (dict_getD acc.uniprot_to_code5 r.2.1 [] ++ [r.1]),
          code5_to_seqclust := dict_insert acc.code5_to_seqclust r.1
            (get_seqclust clusters oracle (r.2.2.take 4) ((r.2.2.drop 4).take 1) true) }
        rest

/-- `ToughM1.preprocess_once`, starting from empty mappings. -/
def preprocess_once (clusters : String → Option ℕ) (oracle : String → Option String)
    (jobs : List (WorkerEnv × String)) : Except WErr PreprocResult :=
  preprocess_loop clusters oracle ⟨[], [], []⟩ jobs

end ToughM1

/-! ## Theorems -/

/-! ### voc_ap: envelope refinement (C2, C9) -/

theorem envSpec_length (l : List ℚ) : (envSpec l).length = l.length := by
  simp [envSpec]

theorem envSpec_cons (x : ℚ) (l : List ℚ) :
    envSpec (x :: l) = (((x :: l).max?).getD 0) :: envSpec l := by
  simp only [envSpec, List.length_cons, List.range_succ_eq_map, List.map_cons, List.map_map,
    List.drop_zero]
  refine congrArg₂ _ rfl (List.map_congr_left fun i _ => ?_)
  simp [Function.comp, List.drop_succ_cons]

theorem max?_cons_getD (x : ℚ) (l : List ℚ) (h : l ≠ []) :
    ((x :: l).max?).getD 0 = max x ((l.max?).getD 0) := by
  cases l with
  | nil => exact absurd rfl h
  | cons y ys => simp [List.max?_cons]

theorem envLoop_eq_envSpec (l : List ℚ) : envLoop l = envSpec l := by
  induction l with
  | nil => simp [envLoop, envSpec]
  | cons x l ih =>
    cases l with
    | nil => simp [envLoop, envSpec, List.range_succ, List.max?_cons, List.max?_nil]
    | cons y rest =>
      rw [envLoop, ih, envSpec_cons y rest, envSpec_cons x (y :: rest),
        max?_cons_getD x (y :: rest) (by simp), envSpec_cons y rest]

theorem sumDeltas_eq (r : List ℚ) : ∀ p : List ℚ, r.length = p.length →
    sumDeltas r p = Finset.sum (Finset.range (r.length - 1)) (fun i =>
      if r.getD (i + 1) 0 ≠ r.getD i 0
      then (r.getD (i + 1) 0 - r.getD i 0) * p.getD (i + 1) 0
      else 0) := by
  induction r with
  | nil => intro p _; simp [sumDeltas]
  | cons r0 rs ih =>
    intro p h
    cases rs with
    | nil => simp [sumDeltas]
    | cons r1 rs' =>
      cases p with
      | nil => simp at h
      | cons p0 ps =>
        cases ps with
        | nil => simp at h
        | cons p1 ps' =>
          rw [sumDeltas, ih (p1 :: ps') (by simpa using h)]
          have hn : (r0 :: r1 :: rs').length - 1 = rs'.length + 1 := by simp
          rw [hn, Finset.sum_range_succ']
          have hn2 : (r1 :: rs').length - 1 = rs'.length := by simp
          rw [hn2]
          conv_rhs => rw [add_comm]
          refine congrArg₂ _ (by simp) (Finset.sum_congr rfl fun i _ => ?_)
          simp [List.getD_cons_succ]

/-- C2: `voc_ap` equals the VOC interpolated average precision as the spec
describes it — sentinels appended, the backward maximum loop realises the
monotonic suffix-maximum precision envelope, and the result is the sum of
`Δrecall × envelope precision at the higher recall` over the recall
breakpoints; on `rec = [0, 0.5, 1.0]`, `prec = [1.0, 0.5, 0.5]` the result
is `0.5`. -/
theorem voc_ap_matches_spec :
    (∀ rc pc : List ℚ, rc.length = pc.length → voc_ap rc pc = voc_ap_spec rc pc)
    ∧ voc_ap [0, 1/2, 1] [1, 1/2, 1/2] = 1/2 := by
  constructor
  · intro rc pc h
    simp only [voc_ap, voc_ap_spec]
    rw [envLoop_eq_envSpec]
    exact sumDeltas_eq _ _ (by simp [envSpec_length, h])
  · norm_num [voc_ap, envLoop, sumDeltas]

/-- Witness for C2 at the spec's concrete example. -/
theorem voc_ap_matches_spec_witness :
    voc_ap [0, 1/2, 1] [1, 1/2, 1/2] = voc_ap_spec [0, 1/2, 1] [1, 1/2, 1/2] :=
  voc_ap_matches_spec.1 _ _ (by simp)

/-- C9: `voc_ap` on empty recall and precision arrays returns exactly `0`
(the sentinels make `mrec = [0, 1]`, `mpre = [0, 0]`, and the single recall
breakpoint contributes `(1 - 0) * 0`). -/
theorem voc_ap_nil_nil : voc_ap [] [] = 0 := by
  norm_num [voc_ap, envLoop, sumDeltas]

/-! ### get_seqclust (C4, C5, C10) -/

/-- C4: a cluster lookup for a key absent from the cluster map, whose
obsolete-status retry also fails to resolve (either the entry is not
obsolete / the status service failed, or the superseding key is absent
too), returns the `'None'` sentinel; `get_seqclust` is a total function of
its oracle inputs, so no exception is possible. -/
theorem get_seqclust_miss_returns_none
    (clusters : String → Option ℕ) (oracle : String → Option String) (code chain : String)
    (hmiss : clusters (query_str code chain) = none)
    (hretry : ∀ s, oracle code = some s → clusters (query_str s chain) = none) :
    get_seqclust clusters oracle code chain true = none := by
  cases ho : oracle code with
  | none => simp [get_seqclust, hmiss, ho]
  | some s => simp [get_seqclust, hmiss, ho, hretry s ho]

/-- Witness for C4: a fully unknown code with an oracle that resolves
nothing. -/
theorem get_seqclust_miss_returns_none_witness :
    get_seqclust (fun _ => none) (fun _ => none) "1abc" "A" true = none :=
  get_seqclust_miss_returns_none _ _ _ _ rfl (fun _ h => Option.noConfusion h)

/-- C5: for an obsolete code whose superseding code (with the same chain
letter) is in the cluster map, `get_seqclust` with `check_obsolete` returns
the superseding entry's cluster id.  The oracle is arbitrary — in
particular it may mark the superseding code as obsolete too — yet the
result only depends on the map entry of the superseding key: the retry is
made with `check_obsolete=False`, so exactly one redirection hop is taken
and the lookup terminates. -/
theorem get_seqclust_obsolete_single_hop
    (clusters : String → Option ℕ) (oracle : String → Option String)
    (code chain s : String) (c : ℕ)
    (hmiss : clusters (query_str code chain) = none)
    (hobs : oracle code = some s)
    (hhit : clusters (query_str s chain) = some c) :
    get_seqclust clusters oracle code chain true = some c := by
  simp [get_seqclust, hmiss, hobs, hhit]

/-- Witness for C5, with an oracle marking the superseding code `2xyz` as
itself superseded by `9zzz`: the second hop is never taken. -/
theorem get_seqclust_obsolete_single_hop_witness :
    get_seqclust (fun k => if k = "2XYZ_A" then some 7 else none)
      (fun x => if x = "1abc" then some "2xyz" else if x = "2xyz" then some "9zzz" else none)
      "1abc" "A" true = some 7 :=
  get_seqclust_obsolete_single_hop _ _ "1abc" "A" "2xyz" 7 (by decide) (by decide) (by decide)

theorem toNat_ofNat_valid {m : ℕ} (h : m.isValidChar) : (Char.ofNat m).toNat = m := by
  rw [Char.ofNat, dif_pos h]
  rfl

theorem char_toUpper_idem (c : Char) : c.toUpper.toUpper = c.toUpper := by
  unfold Char.toUpper
  by_cases h : c.toNat ≥ 97 ∧ c.toNat ≤ 122
  · rw [if_pos h]
    have hv : (c.toNat - 32).isValidChar := Or.inl (by omega)
    rw [toNat_ofNat_valid hv, if_neg (by omega)]
  · rw [if_neg h, if_neg h]

theorem str_upper_idem (s : String) : str_upper (str_upper s) = str_upper s := by
  cases s with
  | mk data =>
    simp only [str_upper, List.map_map]
    exact congrArg _ (List.map_congr_left fun c _ => char_toUpper_idem c)

/-- C10: with the obsolete retry disabled, `get_seqclust` is
case-insensitive in both arguments, because the query key always
uppercases both parts into `CODE_CHAIN`. -/
theorem get_seqclust_case_insensitive
    (clusters : String → Option ℕ) (oracle : String → Option String) (code chain : String) :
    get_seqclust clusters oracle code chain false
      = get_seqclust clusters oracle (str_upper code) (str_upper chain) false := by
  simp only [get_seqclust, query_str, str_upper_idem]

/-! ### Pair building (C3) -/

theorem parse_file_list_length_add (dict : String → Option Entry)
    (lines : List (String × String)) :
    (ToughM1.parse_file_list dict lines).length
      + lines.countP (fun p => !((dict p.1).isSome && (dict p.2).isSome)) = lines.length := by
  induction lines with
  | nil => rfl
  | cons p rest ih =>
    obtain ⟨a, b⟩ := p
    cases h1 : dict a <;> cases h2 : dict b <;>
      simp [ToughM1.parse_file_list, h1, h2, List.countP_cons] at ih ⊢ <;> omega

/-- C3: the pair builders keep a pair iff both identifiers resolve in the
catalog.  Conjuncts: (1) building distributes over concatenation of
listings, so kept pairs appear in input listing order; (2) a listing of
`N` lines of which `k` reference an unresolved id yields exactly `N - k`
pairs; (3) the multiplicity of every resolved pair equals the number of
listing lines resolving to it (kept iff both resolve, duplicates
preserved); (4) the Prospeccts builder keeps exactly the same pairs as the
ToughM1 one on the id part of its lines, with one label per kept pair.
Both builders are total functions: an unresolved line is dropped (with a
warning in the Prospeccts case), never an error. -/
theorem pair_builder_drops_unresolved :
    (∀ (dict : String → Option Entry) (l1 l2 : List (String × String)),
      ToughM1.parse_file_list dict (l1 ++ l2)
        = ToughM1.parse_file_list dict l1 ++ ToughM1.parse_file_list dict l2)
    ∧ (∀ (dict : String → Option Entry) (lines : List (String × String)),
      (ToughM1.parse_file_list dict lines).length
        = lines.length - lines.countP fun p => !((dict p.1).isSome && (dict p.2).isSome))
    ∧ (∀ (dict : String → Option Entry) (lines : List (String × String)) (e1 e2 : Entry),
      (ToughM1.parse_file_list dict lines).count (e1, e2)
        = lines.countP fun p => decide (dict p.1 = some e1) && decide (dict p.2 = some e2))
    ∧ (∀ (dict : String → Option Entry) (lines : List (String × String × String)),
      (Prospeccts.build_pairs dict lines).1
        = ToughM1.parse_file_list dict (lines.map fun t => (t.1, t.2.1))
      ∧ (Prospeccts.build_pairs dict lines).2.1.length
        = (Prospeccts.build_pairs dict lines).1.length) := by
  refine ⟨fun dict l1 l2 => ?_, fun dict lines => ?_, fun dict lines e1 e2 => ?_,
    fun dict lines => ?_⟩
  · induction l1 with
    | nil => rfl
    | cons p rest ih =>
      obtain ⟨a, b⟩ := p
      cases h1 : dict a <;> cases h2 : dict b <;>
        simp [ToughM1.parse_file_list, h1, h2, ih]
  · have h := parse_file_list_length_add dict lines
    omega
  · induction lines with
    | nil => rfl
    | cons p rest ih =>
      obtain ⟨a, b⟩ := p
      cases h1 : dict a <;> cases h2 : dict b <;>
        simp [ToughM1.parse_file_list, h1, h2, List.countP_cons, List.count_cons, ih,
          Prod.ext_iff]
  · induction lines with
    | nil => exact ⟨rfl, rfl⟩
    | cons t rest ih =>
      obtain ⟨a, b, cls⟩ := t
      cases h1 : dict a <;> cases h2 : dict b <;>
        simp [ToughM1.parse_file_list, Prospeccts.build_pairs, h1, h2, ih.1, ih.2]

/-! ### goodidx characterisation (towards C6 and C1) -/

theorem enumFrom_filter_finite_shift (s : List MScore) : ∀ n : ℕ,
    ((List.enumFrom n s).filter fun p => p.2.isFinite).map Prod.fst
      = ((s.enum.filter fun p => p.2.isFinite).map Prod.fst).map (· + n) := by
  induction s with
  | nil => intro n; simp
  | cons m rest ih =>
    intro n
    rw [List.enumFrom_cons, List.enum_cons]
    by_cases hm : m.isFinite
    · simp only [List.filter_cons, hm, if_pos trivial, List.map_cons, ih (n + 1), ih 1,
        List.map_map, Nat.zero_add]
      refine congrArg₂ _ rfl (List.map_congr_left fun x _ => ?_)
      simp only [Function.comp_apply]
      omega
    · simp [List.filter_cons, hm, ih (n + 1), ih 1, List.map_map]
      intro a b _ _
      omega

theorem goodidx_cons (m : MScore) (s : List MScore) :
    goodidx (m :: s) = (if m.isFinite then [0] else []) ++ (goodidx s).map (· + 1) := by
  by_cases hm : m.isFinite <;>
    simp [goodidx, List.enum_cons, List.filter_cons, hm, enumFrom_filter_finite_shift s 1]

theorem filterMap_getElem_shift {α : Type} (x : α) (xs : List α) (is : List ℕ) :
    ((is.map (· + 1)).filterMap fun i => (x :: xs)[i]?) = is.filterMap fun i => xs[i]? := by
  rw [List.filterMap_map]
  exact List.filterMap_congr fun i _ => by simp [Function.comp]

theorem goodidx_length (s : List MScore) :
    (goodidx s).length = s.countP fun m => m.isFinite := by
  induction s with
  | nil => rfl
  | cons m rest ih =>
    rw [goodidx_cons, List.countP_cons]
    by_cases hm : m.isFinite <;> simp [hm, ih]

theorem goodidx_filterMap_scores (s : List MScore) :
    ((goodidx s).filterMap fun i => s[i]?) = s.filter fun m => m.isFinite := by
  induction s with
  | nil => rfl
  | cons m rest ih =>
    rw [goodidx_cons, List.filterMap_append, filterMap_getElem_shift, ih, List.filter_cons]
    by_cases hm : m.isFinite <;> simp [hm]

theorem goodidx_filterMap_labels (s : List MScore) : ∀ y : List Bool, s.length = y.length →
    ((goodidx s).filterMap fun i => y[i]?)
      = (y.zip s).filterMap fun p => if p.2.isFinite then some p.1 else none := by
  induction s with
  | nil => intro y _; simp [goodidx]
  | cons m rest ih =>
    intro y h
    cases y with
    | nil => simp at h
    | cons b ys =>
      rw [goodidx_cons, List.filterMap_append, filterMap_getElem_shift,
        ih ys (by simpa using h), List.zip_cons_cons, List.filterMap_cons]
      by_cases hm : m.isFinite <;> simp [hm]

theorem zip_filterMap_all_finite (s : List MScore) : ∀ y : List Bool, s.length = y.length →
    (∀ m ∈ s, m.isFinite) →
    ((y.zip s).filterMap fun p => if p.2.isFinite then some p.1 else none) = y := by
  induction s with
  | nil => intro y h _; cases y with | nil => rfl | cons b ys => simp at h
  | cons m rest ih =>
    intro y h hall
    cases y with
    | nil => simp at h
    | cons b ys =>
      rw [List.zip_cons_cons, List.filterMap_cons]
      have hm : m.isFinite := hall m (by simp)
      simp only [hm, if_pos trivial]
      rw [ih ys (by simpa using h) fun x hx => hall x (by simp [hx])]

theorem countP_finite_total (s : List MScore) :
    s.countP (fun m => m.isFinite) + s.countP (fun m => !m.isFinite) = s.length := by
  induction s with
  | nil => rfl
  | cons m rest ih =>
    rw [List.countP_cons, List.countP_cons]
    by_cases hm : m.isFinite <;> simp [hm] <;> omega

theorem compute_metrics_snd (y : List Bool) (s : List MScore) :
    (compute_metrics y s).2
      = if (goodidx s).length ≠ s.length
        then [LogMsg.ignoringPairs (s.length - (goodidx s).length)] else [] := by
  simp only [compute_metrics]
  by_cases hc : (goodidx s).length ≠ s.length
  · rw [if_pos hc, if_pos hc]
  · rw [if_neg hc, if_neg hc]

theorem compute_metrics_clean (positives : List Bool) (scores : List MScore)
    (h : scores.length = positives.length) :
    compute_metrics positives scores
      = ((compute_metrics
            ((positives.zip scores).filterMap fun p => if p.2.isFinite then some p.1 else none)
            (scores.filter fun m => m.isFinite)).1,
         if scores.countP (fun m => !m.isFinite) = 0 then []
         else [LogMsg.ignoringPairs (scores.countP fun m => !m.isFinite)]) := by
  have hsum := countP_finite_total scores
  have hg := goodidx_length scores
  have hA := goodidx_filterMap_labels scores positives h
  have hB := goodidx_filterMap_scores scores
  by_cases hk : scores.countP (fun m => !m.isFinite) = 0
  · have hall : ∀ m ∈ scores, m.isFinite := by
      intro m hm
      have := List.countP_eq_zero.mp hk m hm
      simpa using this
    have hfilter : scores.filter (fun m => m.isFinite) = scores :=
      List.filter_eq_self.mpr hall
    have hzip := zip_filterMap_all_finite scores positives h hall
    have hlen : ¬((goodidx scores).length ≠ scores.length) := by omega
    rw [hfilter, hzip, if_pos hk]
    refine Prod.ext rfl ?_
    rw [compute_metrics_snd, if_neg hlen]
  · have hlen : (goodidx scores).length ≠ scores.length := by omega
    have hkk : scores.length - (goodidx scores).length = scores.countP fun m => !m.isFinite := by
      omega
    have hallB : ∀ m ∈ scores.filter (fun m => m.isFinite), m.isFinite := by
      intro m hm
      exact List.of_mem_filter hm
    have hlenB : ¬((goodidx (scores.filter fun m => m.isFinite)).length
        ≠ (scores.filter fun m => m.isFinite).length) := by
      have h1 := goodidx_length (scores.filter fun m => m.isFinite)
      have h2 : (scores.filter fun m => m.isFinite).countP (fun m => m.isFinite)
          = (scores.filter fun m => m.isFinite).length := List.countP_eq_length.mpr hallB
      omega
    rw [if_neg hk]
    simp only [compute_metrics, if_pos hlen, if_neg hlenB, hA, hB, hkk]

/-- C6: the metric block computes its metrics over exactly the
finite-score subset — the result's metric half equals that of running the
block directly on the label/score sublists at the finite positions — and
logs exactly one warning carrying the excluded count iff any score is
non-finite; and both `evaluate_matching` methods echo the full unfiltered
pairs, scores and positive mask in the returned results dict. -/
theorem evaluate_matching_filters_nonfinite :
    (∀ (positives : List Bool) (scores : List MScore), scores.length = positives.length →
      compute_metrics positives scores
        = ((compute_metrics
              ((positives.zip scores).filterMap fun p => if p.2.isFinite then some p.1 else none)
              (scores.filter fun m => m.isFinite)).1,
           if scores.countP (fun m => !m.isFinite) = 0 then []
           else [LogMsg.ignoringPairs (scores.countP fun m => !m.isFinite)]))
    ∧ (∀ (entries : List Entry) (lines : List (String × String × String))
        (matcher : List (Entry × Entry) → List MScore),
      (Prospeccts.evaluate_matching entries lines matcher).1.map
          (fun r => (r.pairs, r.scores, r.pos_mask))
        = ((Prospeccts.evaluate_matching entries lines matcher).1.map fun _ =>
            ((Prospeccts.build_pairs (target_dict entries) lines).1,
             matcher (Prospeccts.build_pairs (target_dict entries) lines).1,
             (Prospeccts.build_pairs (target_dict entries) lines).2.1)))
    ∧ (∀ (entries : List Entry) (posLines negLines : List (String × String))
        (matcher : List (Entry × Entry) → List MScore),
      (ToughM1.evaluate_matching entries posLines negLines matcher).1.map
          (fun r => (r.pairs, r.scores, r.pos_mask))
        = ((ToughM1.evaluate_matching entries posLines negLines matcher).1.map fun _ =>
            (ToughM1.parse_file_list (target_dict entries) posLines
               ++ ToughM1.parse_file_list (target_dict entries) negLines,
             matcher (ToughM1.parse_file_list (target_dict entries) posLines
               ++ ToughM1.parse_file_list (target_dict entries) negLines),
             List.replicate (ToughM1.parse_file_list (target_dict entries) posLines).length true
               ++ List.replicate
                   (ToughM1.parse_file_list (target_dict entries) negLines).length false))) := by
  refine ⟨compute_metrics_clean, fun entries lines matcher => ?_, fun entries pL nL matcher => ?_⟩
  · simp only [Prospeccts.evaluate_matching, Option.map_map]
    cases (compute_metrics (Prospeccts.build_pairs (target_dict entries) lines).2.1
        (matcher (Prospeccts.build_pairs (target_dict entries) lines).1)).1 <;> rfl
  · simp only [ToughM1.evaluate_matching, Option.map_map]
    cases (compute_metrics
        (List.replicate (ToughM1.parse_file_list (target_dict entries) pL).length true
          ++ List.replicate (ToughM1.parse_file_list (target_dict entries) nL).length false)
        (matcher (ToughM1.parse_file_list (target_dict entries) pL
          ++ ToughM1.parse_file_list (target_dict entries) nL))).1 <;> rfl

/-- Witness for C6: one non-finite score among three — the metric half
equals the clean two-pair computation and exactly one warning with count 1
is logged; the echoed fields keep all three pairs and scores. -/
theorem evaluate_matching_filters_nonfinite_witness :
    compute_metrics [true, false, true] [.fin 1, .fin 0, .nonfin]
      = ((compute_metrics [true, false] [.fin 1, .fin 0]).1,
         [LogMsg.ignoringPairs 1])
    ∧ (Prospeccts.evaluate_matching [⟨"a"⟩, ⟨"b"⟩]
          [("a", "b", "active"), ("a", "b", "x"), ("a", "a", "active")]
          (fun _ => [.fin 1, .fin 0, .nonfin])).1.map
            (fun r => (r.pairs, r.scores, r.pos_mask))
        = some ([(⟨"a"⟩, ⟨"b"⟩), (⟨"a"⟩, ⟨"b"⟩), (⟨"a"⟩, ⟨"a"⟩)],
                [.fin 1, .fin 0, .nonfin], [true, false, true]) := by
  constructor
  · exact evaluate_matching_filters_nonfinite.1 [true, false, true] [.fin 1, .fin 0, .nonfin] rfl
  · rw [evaluate_matching_filters_nonfinite.2.1 [⟨"a"⟩, ⟨"b"⟩]
      [("a", "b", "active"), ("a", "b", "x"), ("a", "a", "active")]
      (fun _ => [.fin 1, .fin 0, .nonfin])]
    rfl

/-! ### Failure of the metric routines (C1) -/

theorem roc_curve_eq_none_iff (y : List Bool) (v : List ℚ) :
    roc_curve y v = none ↔ (y = [] ∨ v = []) := by
  by_cases h : (y = [] ∨ v = []) <;> simp [roc_curve, h]

theorem roc_auc_score_eq_none_iff (y : List Bool) (v : List ℚ) :
    roc_auc_score y v = none ↔ ¬(y.contains true ∧ y.contains false) := by
  by_cases h : (y.contains true ∧ y.contains false) <;> simp [roc_auc_score, h]

theorem precision_recall_curve_eq_none_iff (y : List Bool) (v : List ℚ) :
    precision_recall_curve y v = none ↔ (y = [] ∨ v = []) := by
  by_cases h : (y = [] ∨ v = []) <;> simp [precision_recall_curve, h]

theorem metric_match_none_of_roc_none (y : List Bool) (v : List ℚ)
    (h : roc_curve y v = none) : metric_match y v = none := by
  simp [metric_match, h]

theorem metric_match_eq_none_iff (y : List Bool) (v : List ℚ) (h : y.length = v.length) :
    metric_match y v = none ↔ ¬(y.contains true ∧ y.contains false) := by
  rcases hroc : roc_curve y v with _ | trip
  · have he := (roc_curve_eq_none_iff y v).mp hroc
    have hy : y = [] := by
      rcases he with he | he
      · exact he
      · exact List.length_eq_zero.mp (by rw [h, he]; rfl)
    subst hy
    simp [metric_match, hroc]
  · obtain ⟨fpr, tpr, thr⟩ := trip
    rcases hauc : roc_auc_score y v with _ | auc
    · have hc := (roc_auc_score_eq_none_iff y v).mp hauc
      rcases hpr : precision_recall_curve y v with _ | trip2
      · simp only [metric_match, hroc, hauc, hpr]
        simpa using hc
      · obtain ⟨a, b, c⟩ := trip2
        simp only [metric_match, hroc, hauc, hpr]
        simpa using hc
    · have hcls : y.contains true ∧ y.contains false := by
        by_contra hc
        rw [(roc_auc_score_eq_none_iff y v).mpr hc] at hauc
        exact Option.noConfusion hauc
      have hy : y ≠ [] := by
        intro he
        subst he
        simp at hcls
      have hv : v ≠ [] := fun he => hy (List.length_eq_zero.mp (by rw [h, he]; rfl))
      rcases hpr : precision_recall_curve y v with _ | trip2
      · rcases (precision_recall_curve_eq_none_iff y v).mp hpr with he | he
        · exact absurd he hy
        · exact absurd he hv
      · obtain ⟨a, b, c⟩ := trip2
        simp only [metric_match, hroc, hauc, hpr]
        simpa using hcls

theorem goodidx_mem_lt (s : List MScore) : ∀ i ∈ goodidx s, i < s.length := by
  induction s with
  | nil => simp [goodidx]
  | cons m rest ih =>
    intro i hi
    rw [goodidx_cons] at hi
    rcases List.mem_append.mp hi with hi | hi
    · by_cases hm : m.isFinite
      · simp [hm] at hi
        simp only [List.length_cons]
        omega
      · simp [hm] at hi
    · obtain ⟨j, hj, rfl⟩ := List.mem_map.mp hi
      have := ih j hj
      simp only [List.length_cons]
      omega

theorem filterMap_getElem_length {α : Type} (y : List α) :
    ∀ is : List ℕ, (∀ i ∈ is, i < y.length) →
      (is.filterMap fun i => y[i]?).length = is.length := by
  intro is
  induction is with
  | nil => intro _; rfl
  | cons i rest ih =>
    intro hb
    rw [List.filterMap_cons, List.getElem?_eq_getElem (hb i (by simp))]
    simp only [List.length_cons]
    rw [ih fun j hj => hb j (by simp [hj])]

theorem finVals_length_all (s : List MScore) (h : ∀ m ∈ s, m.isFinite) :
    (finVals s).length = s.length := by
  induction s with
  | nil => rfl
  | cons m rest ih =>
    have hm := h m (by simp)
    cases m with
    | nonfin => simp [MScore.isFinite] at hm
    | fin q =>
      rw [finVals, List.filterMap_cons]
      simp only [List.length_cons]
      have := ih fun x hx => h x (by simp [hx])
      rw [finVals] at this
      simp [this]

theorem compute_metrics_all_nonfinite (positives : List Bool) (scores : List MScore)
    (hall : ∀ m ∈ scores, m.isFinite = false) : (compute_metrics positives scores).1 = none := by
  have hgood : goodidx scores = [] := by
    rw [← List.length_eq_zero, goodidx_length]
    exact List.countP_eq_zero.mpr fun m hm => by simp [hall m hm]
  by_cases hs : scores = []
  · subst hs
    have h1 : (compute_metrics positives []).1 = metric_match positives (finVals []) := by
      simp [compute_metrics, goodidx]
    rw [h1]
    exact metric_match_none_of_roc_none _ _
      ((roc_curve_eq_none_iff _ _).mpr (Or.inr rfl))
  · have hne : (goodidx scores).length ≠ scores.length := by
      rw [hgood]
      simpa using fun hc => hs (List.length_eq_zero.mp hc.symm)
    have h1 : (compute_metrics positives scores).1
        = metric_match ((goodidx scores).filterMap fun i => positives[i]?)
            (finVals ((goodidx scores).filterMap fun i => scores[i]?)) := by
      simp only [compute_metrics, if_pos hne]
    rw [h1, hgood]
    simp only [List.filterMap_nil]
    exact metric_match_none_of_roc_none _ _
      ((roc_curve_eq_none_iff _ _).mpr (Or.inl rfl))

/-- C1 counterexample: an input whose scores include a finite value on
which `evaluate_matching` still fails to produce a result (the finite
subset holds a single label class, so the AUC routine raises); the claim's
"no such condition is raised whenever at least one finite score exists" is
false on the code. -/
theorem insufficient_data_counterexample :
    ([MScore.fin 1].any MScore.isFinite = true)
    ∧ (Prospeccts.evaluate_matching [⟨"a1"⟩] [("a1", "a1", "active")]
        (fun _ => [MScore.fin 1])).1 = none := by
  exact ⟨rfl, rfl⟩

theorem zip_filterMap_finite_length (scores : List MScore) (positives : List Bool)
    (h : scores.length = positives.length) :
    ((positives.zip scores).filterMap fun p => if p.2.isFinite then some p.1 else none).length
      = (finVals (scores.filter fun m => m.isFinite)).length := by
  rw [← goodidx_filterMap_labels scores positives h,
    filterMap_getElem_length positives (goodidx scores)
      (fun i hi => h ▸ goodidx_mem_lt scores i hi),
    finVals_length_all _ (fun m hm => List.of_mem_filter hm),
    ← List.countP_eq_length_filter, goodidx_length]

/-- C1 amended: when every score is non-finite, `evaluate_matching` (either
dataset) produces no numeric result — the finite subset is empty and the
underlying metric routines fail; the failure is the metric library's own
empty-input/one-class error, not a distinct explicitly-guarded condition in
the repository code.  The claim's converse half must be weakened: the
metric block succeeds iff the finite-score subset contains at least one
positive and one negative label, so an input with a finite score can still
fail. -/
theorem insufficient_data_policy :
    (∀ (entries : List Entry) (lines : List (String × String × String))
       (matcher : List (Entry × Entry) → List MScore),
      (∀ m ∈ matcher (Prospeccts.build_pairs (target_dict entries) lines).1,
        m.isFinite = false) →
      (Prospeccts.evaluate_matching entries lines matcher).1 = none)
    ∧ (∀ (entries : List Entry) (posLines negLines : List (String × String))
       (matcher : List (Entry × Entry) → List MScore),
      (∀ m ∈ matcher (ToughM1.parse_file_list (target_dict entries) posLines
          ++ ToughM1.parse_file_list (target_dict entries) negLines),
        m.isFinite = false) →
      (ToughM1.evaluate_matching entries posLines negLines matcher).1 = none)
    ∧ (∀ (positives : List Bool) (scores : List MScore), scores.length = positives.length →
      (((compute_metrics positives scores).1 = none)
        ↔ ¬((((positives.zip scores).filterMap
              fun p => if p.2.isFinite then some p.1 else none).contains true)
            ∧ (((positives.zip scores).filterMap
              fun p => if p.2.isFinite then some p.1 else none).contains false)))) := by
  refine ⟨fun entries lines matcher hall => ?_, fun entries pL nL matcher hall => ?_,
    fun positives scores h => ?_⟩
  · simp only [Prospeccts.evaluate_matching]
    rw [compute_metrics_all_nonfinite _ _ hall]
    rfl
  · simp only [ToughM1.evaluate_matching]
    rw [compute_metrics_all_nonfinite _ _ hall]
    rfl
  · rw [compute_metrics_clean positives scores h]
    have hlenB : ¬((goodidx (scores.filter fun m => m.isFinite)).length
        ≠ (scores.filter fun m => m.isFinite).length) := by
      have h1 := goodidx_length (scores.filter fun m => m.isFinite)
      have h2 : (scores.filter fun m => m.isFinite).countP (fun m => m.isFinite)
          = (scores.filter fun m => m.isFinite).length :=
        List.countP_eq_length.mpr fun m hm => List.of_mem_filter hm
      omega
    simp only [compute_metrics, if_neg hlenB]
    exact metric_match_eq_none_iff _ _ (zip_filterMap_finite_length scores positives h)

/-- Witness for C1 amended: an all-non-finite run fails, and a run whose
finite subset is a single (positive-only) score fails too. -/
theorem insufficient_data_policy_witness :
    (Prospeccts.evaluate_matching [⟨"a1"⟩] [("a1", "a1", "active")]
        (fun _ => [MScore.nonfin])).1 = none
    ∧ (compute_metrics [true] [MScore.fin 1]).1 = none :=
  ⟨insufficient_data_policy.1 [⟨"a1"⟩] [("a1", "a1", "active")] (fun _ => [MScore.nonfin])
      (by decide),
   (insufficient_data_policy.2.2 [true] [MScore.fin 1] rfl).mpr (by decide)⟩

/-! ### Duplicate accession handling (C7) -/

theorem accession_step_fst (q : String) (acc : Option String × List LogMsg)
    (pc : String × String) :
    (ToughM1.accession_step q acc pc).1 = if pc.2 = q then some pc.1 else acc.1 := by
  obtain ⟨r0, logs0⟩ := acc
  by_cases hq : pc.2 = q
  · cases r0 with
    | none => simp [ToughM1.accession_step, hq]
    | some r => by_cases hr : pc.1 ≠ r <;> simp [ToughM1.accession_step, hq, hr]
  · simp [ToughM1.accession_step, hq]

theorem accession_step_skip (q : String) (acc : Option String × List LogMsg)
    (pc : String × String) (hq : ¬pc.2 = q) : ToughM1.accession_step q acc pc = acc := by
  simp [ToughM1.accession_step, hq]

theorem accession_step_snd_le (q : String) (acc : Option String × List LogMsg)
    (pc : String × String) : acc.2.length ≤ (ToughM1.accession_step q acc pc).2.length := by
  obtain ⟨r0, logs0⟩ := acc
  by_cases hq : pc.2 = q
  · cases r0 with
    | none => simp [ToughM1.accession_step, hq]
    | some r => by_cases hr : pc.1 ≠ r <;> simp [ToughM1.accession_step, hq, hr]
  · simp [ToughM1.accession_step, hq]

theorem accession_step_snd_same (q : String) (acc : Option String × List LogMsg)
    (pc : String × String) (hq : pc.2 = q) (hg : acc.1 = some pc.1) :
    (ToughM1.accession_step q acc pc).2 = acc.2 := by
  obtain ⟨r0, logs0⟩ := acc
  simp only at hg
  subst hg
  simp [ToughM1.accession_step, hq]

theorem accession_step_snd_warn (q : String) (acc : Option String × List LogMsg)
    (pc : String × String) (r : String) (hq : pc.2 = q) (hg : acc.1 = some r)
    (hr : pc.1 ≠ r) :
    (ToughM1.accession_step q acc pc).2.length = acc.2.length + 1 := by
  obtain ⟨r0, logs0⟩ := acc
  simp only at hg
  subst hg
  simp [ToughM1.accession_step, hq, hr]

theorem accession_scan_fst (q : String) (l : List (String × String)) :
    ∀ acc : Option String × List LogMsg,
      (l.foldl (ToughM1.accession_step q) acc).1
        = l.foldl (fun r pc => if pc.2 = q then some pc.1 else r) acc.1 := by
  induction l with
  | nil => intro acc; rfl
  | cons pc rest ih =>
    intro acc
    rw [List.foldl_cons, List.foldl_cons, ih, accession_step_fst]

theorem foldl_lastMatch (q : String) (l : List (String × String)) :
    ∀ r0 : Option String,
      l.foldl (fun r pc => if pc.2 = q then some pc.1 else r) r0
        = match ((l.filter fun pc => pc.2 == q).map Prod.fst).getLast? with
          | some x => some x
          | none => r0 := by
  induction l with
  | nil => intro r0; rfl
  | cons pc rest ih =>
    intro r0
    rw [List.foldl_cons, ih]
    by_cases hq : pc.2 = q
    · have hb : (pc.2 == q) = true := by simp [hq]
      rw [List.filter_cons, hb, if_pos rfl, List.map_cons, if_pos hq]
      cases hms : ((rest.filter fun pc => pc.2 == q).map Prod.fst) with
      | nil =>
        rw [List.getLast?_singleton]
        rfl
      | cons x xs =>
        rw [List.getLast?_cons_cons]
        cases hlast : (x :: xs).getLast? with
        | none => exact absurd (List.getLast?_eq_none_iff.mp hlast) (by simp)
        | some v => rfl
    · have hb : (pc.2 == q) = false := by simp [hq]
      rw [List.filter_cons, hb, if_neg Bool.false_ne_true, if_neg hq]

theorem pdb_chain_to_uniprot_fst (code : String) (fam : List (String × List String))
    (q : String) :
    (ToughM1.pdb_chain_to_uniprot code fam q).1
      = ((fam.flatMap fun p => p.2.map fun c => (p.1, c)).foldl
          (ToughM1.accession_step q) (none, [])).1 := by
  simp only [ToughM1.pdb_chain_to_uniprot]
  rcases h : ((fam.flatMap fun p => p.2.map fun c => (p.1, c)).foldl
      (ToughM1.accession_step q) (none, [])).1 with _ | r <;> simp [h]

theorem accession_scan_snd_le (q : String) (l : List (String × String)) :
    ∀ acc : Option String × List LogMsg,
      acc.2.length ≤ ((l.foldl (ToughM1.accession_step q) acc).2).length := by
  induction l with
  | nil => intro acc; exact le_refl _
  | cons pc rest ih =>
    intro acc
    rw [List.foldl_cons]
    exact le_trans (accession_step_snd_le q acc pc) (ih _)

theorem accession_scan_snd_growth_seeded (q : String) (l : List (String × String)) :
    ∀ (acc : Option String × List LogMsg) (g : String), acc.1 = some g →
      (∃ f ∈ (l.filter fun pc => pc.2 == q).map Prod.fst, f ≠ g) →
      acc.2.length < ((l.foldl (ToughM1.accession_step q) acc).2).length := by
  induction l with
  | nil => intro acc g _ hf; simp at hf
  | cons pc rest ih =>
    intro acc g hg hf
    rw [List.foldl_cons]
    by_cases hq : pc.2 = q
    · by_cases hpc : pc.1 = g
      · have hstep1 : (ToughM1.accession_step q acc pc).1 = some g := by
          rw [accession_step_fst, if_pos hq, hpc]
        have hstep2 := accession_step_snd_same q acc pc hq (by rw [hg, hpc])
        obtain ⟨f, hfm, hfg⟩ := hf
        rw [List.filter_cons, if_pos (by simp [hq]), List.map_cons] at hfm
        rcases List.mem_cons.mp hfm with hfm | hfm
        · exact absurd (hfm.trans hpc) hfg
        · have hgrow := ih (ToughM1.accession_step q acc pc) g hstep1 ⟨f, hfm, hfg⟩
          have hlen2 : (ToughM1.accession_step q acc pc).2.length = acc.2.length := by
            rw [hstep2]
          omega
      · have hstep2 := accession_step_snd_warn q acc pc g hq hg (by simpa using hpc)
        have := accession_scan_snd_le q rest (ToughM1.accession_step q acc pc)
        omega
    · rw [accession_step_skip q acc pc hq]
      obtain ⟨f, hfm, hfg⟩ := hf
      rw [List.filter_cons, if_neg (by simp [hq])] at hfm
      exact ih acc g hg ⟨f, hfm, hfg⟩

theorem accession_scan_snd_growth (q : String) (l : List (String × String)) :
    ∀ acc : Option String × List LogMsg,
      (∃ f1 ∈ (l.filter fun pc => pc.2 == q).map Prod.fst,
        ∃ f2 ∈ (l.filter fun pc => pc.2 == q).map Prod.fst, f1 ≠ f2) →
      acc.2.length < ((l.foldl (ToughM1.accession_step q) acc).2).length := by
  induction l with
  | nil => intro acc hf; simp at hf
  | cons pc rest ih =>
    intro acc hf
    rw [List.foldl_cons]
    by_cases hq : pc.2 = q
    · have hstep1 : (ToughM1.accession_step q acc pc).1 = some pc.1 := by
        rw [accession_step_fst, if_pos hq]
      by_cases hrest : ∃ f ∈ (rest.filter fun pc => pc.2 == q).map Prod.fst, f ≠ pc.1
      · have := accession_scan_snd_growth_seeded q rest
          (ToughM1.accession_step q acc pc) pc.1 hstep1 hrest
        have hle := accession_step_snd_le q acc pc
        omega
      · push_neg at hrest
        obtain ⟨f1, hf1, f2, hf2, hne⟩ := hf
        rw [List.filter_cons, if_pos (by simp [hq]), List.map_cons] at hf1 hf2
        have he1 : f1 = pc.1 := by
          rcases List.mem_cons.mp hf1 with h | h
          · exact h
          · exact hrest f1 h
        have he2 : f2 = pc.1 := by
          rcases List.mem_cons.mp hf2 with h | h
          · exact h
          · exact hrest f2 h
        exact absurd (he1.trans he2.symm) hne
    · rw [accession_step_skip q acc pc hq]
      obtain ⟨f1, hf1, f2, hf2, hne⟩ := hf
      rw [List.filter_cons, if_neg (by simp [hq])] at hf1 hf2
      exact ih acc ⟨f1, hf1, f2, hf2, hne⟩

theorem uniprot_step_fst (q : String) (acc : List String × List LogMsg)
    (pc : String × String) :
    (Prospeccts.uniprot_step q acc pc).1
      = if q = "" ∨ pc.2 = q then Prospeccts.setAdd acc.1 pc.1 else acc.1 := by
  obtain ⟨r0, logs0⟩ := acc
  by_cases h0 : q = ""
  · simp [Prospeccts.uniprot_step, h0]
  · by_cases hq : pc.2 = q
    · cases r0 with
      | nil => simp [Prospeccts.uniprot_step, h0, hq]
      | cons r rs => by_cases hr : pc.1 ≠ r <;> simp [Prospeccts.uniprot_step, h0, hq, hr]
    · simp [Prospeccts.uniprot_step, h0, hq]

theorem uniprot_scan_fst (q : String) (l : List (String × String)) :
    ∀ acc : List String × List LogMsg,
      (l.foldl (Prospeccts.uniprot_step q) acc).1
        = l.foldl (fun r pc => if q = "" ∨ pc.2 = q then Prospeccts.setAdd r pc.1 else r)
            acc.1 := by
  induction l with
  | nil => intro acc; rfl
  | cons pc rest ih =>
    intro acc
    rw [List.foldl_cons, List.foldl_cons, ih, uniprot_step_fst]

theorem foldl_setAdd_filter (q : String) (l : List (String × String)) :
    ∀ r0 : List String,
      l.foldl (fun r pc => if q = "" ∨ pc.2 = q then Prospeccts.setAdd r pc.1 else r) r0
        = ((l.filter fun pc => if q = "" then true else pc.2 == q).map Prod.fst).foldl
            Prospeccts.setAdd r0 := by
  induction l with
  | nil => intro r0; rfl
  | cons pc rest ih =>
    intro r0
    by_cases h0 : q = ""
    · rw [List.foldl_cons, if_pos (Or.inl h0), List.filter_cons, if_pos (by simp [h0]),
        List.map_cons, List.foldl_cons, ih]
    · by_cases hq : pc.2 = q
      · rw [List.foldl_cons, if_pos (Or.inr hq), List.filter_cons, if_pos (by simp [h0, hq]),
          List.map_cons, List.foldl_cons, ih]
      · rw [List.foldl_cons, if_neg (by simp [h0, hq]), List.filter_cons,
          if_neg (by simp [h0, hq]), ih]

/-- C7 counterexample: two mapping records assigning different accessions
to chain `A`.  The ToughM1 resolver returns the second (last-seen)
accession, not the first-seen one the claim requires; the Prospeccts
resolver merges both accessions into its result set. -/
theorem accession_duplicate_counterexample :
    (ToughM1.pdb_chain_to_uniprot "1abc" [("P10000", ["A"]), ("P20000", ["A"])] "A").1
      = some "P20000"
    ∧ some "P20000" ≠ (some "P10000" : Option String)
    ∧ (Prospeccts.uniprot_result [("P10000", ["A"]), ("P20000", ["A"])] "A").1
      = ["P10000", "P20000"] := by
  refine ⟨rfl, by decide, rfl⟩

/-- C7 amended: on duplicate chain-to-accession assignments the ToughM1
resolver keeps a single winner under a last-seen-wins policy (the result is
the last accession whose mappings contain the query chain) and logs a
duplicate warning whenever two distinct accessions match; the Prospeccts
resolver instead accumulates every matching accession into a set (merging,
in first-insertion order).  Accessions are never averaged. -/
theorem accession_duplicate_policy :
    (∀ (code : String) (fam : List (String × List String)) (q : String),
      (ToughM1.pdb_chain_to_uniprot code fam q).1
        = (ToughM1.matching_accessions fam q).getLast?)
    ∧ (∀ (fam : List (String × List String)) (q : String),
      (Prospeccts.uniprot_result fam q).1
        = Prospeccts.dedup_keep_first (Prospeccts.added_accessions fam q))
    ∧ (∀ (code : String) (fam : List (String × List String)) (q : String) (f1 f2 : String),
      f1 ∈ ToughM1.matching_accessions fam q → f2 ∈ ToughM1.matching_accessions fam q →
      f1 ≠ f2 → (ToughM1.pdb_chain_to_uniprot code fam q).2 ≠ []) := by
  refine ⟨fun code fam q => ?_, fun fam q => ?_, fun code fam q f1 f2 h1 h2 hne => ?_⟩
  · rw [pdb_chain_to_uniprot_fst, accession_scan_fst, foldl_lastMatch]
    simp only [ToughM1.matching_accessions]
    rcases hX : (((fam.flatMap fun p => p.2.map fun c => (p.1, c)).filter
        fun pc => pc.2 == q).map Prod.fst).getLast? with _ | v <;> simp [hX]
  · rw [Prospeccts.uniprot_result, uniprot_scan_fst, foldl_setAdd_filter]
    rfl
  · have hgrow := accession_scan_snd_growth q (fam.flatMap fun p => p.2.map fun c => (p.1, c))
      (none, []) ⟨f1, h1, f2, h2, hne⟩
    simp only [List.length_nil] at hgrow
    have hne2 : ((fam.flatMap fun p => p.2.map fun c => (p.1, c)).foldl
        (ToughM1.accession_step q) (none, [])).2 ≠ [] := by
      intro hc
      rw [hc] at hgrow
      simp at hgrow
    simp only [ToughM1.pdb_chain_to_uniprot]
    rcases hs : ((fam.flatMap fun p => p.2.map fun c => (p.1, c)).foldl
        (ToughM1.accession_step q) (none, [])).1 with _ | r <;>
      simp [hs, hne2]

/-- Witness for C7 amended, at the duplicate-assignment input: last-seen
result and a non-empty warning log. -/
theorem accession_duplicate_policy_witness :
    (ToughM1.pdb_chain_to_uniprot "1abc" [("P10000", ["A"]), ("P20000", ["A"])] "A").1
      = (ToughM1.matching_accessions [("P10000", ["A"]), ("P20000", ["A"])] "A").getLast?
    ∧ (ToughM1.pdb_chain_to_uniprot "1abc" [("P10000", ["A"]), ("P20000", ["A"])] "A").2 ≠ [] :=
  ⟨accession_duplicate_policy.1 "1abc" _ "A",
   accession_duplicate_policy.2.2 "1abc" _ "A" "P10000" "P20000" (by decide) (by decide)
     (by decide)⟩

/-! ### Worker failures during preprocessing (C8) -/

theorem preprocess_loop_ok_iff (clusters : String → Option ℕ) (oracle : String → Option String)
    (jobs : List (WorkerEnv × String)) :
    ∀ acc : PreprocResult,
      (∃ m, ToughM1.preprocess_loop clusters oracle acc jobs = .ok m)
        ↔ ∀ job ∈ jobs, ∃ r, ToughM1.preprocess_worker oracle job.1 job.2 = .ok r := by
  induction jobs with
  | nil =>
    intro acc
    simp [ToughM1.preprocess_loop]
  | cons job rest ih =>
    intro acc
    obtain ⟨env, code5⟩ := job
    rcases hw : ToughM1.preprocess_worker oracle env code5 with e | r
    · constructor
      · rintro ⟨m, hm⟩
        rw [ToughM1.preprocess_loop, hw] at hm
        exact Except.noConfusion hm
      · intro h
        obtain ⟨r, hr⟩ := h (env, code5) (by simp)
        rw [hw] at hr
        exact Except.noConfusion hr
    · rw [ToughM1.preprocess_loop, hw]
      rw [ih]
      simp [List.forall_mem_cons, hw]
      exact fun _ => ⟨r.1, r.2.1, r.2.2, rfl⟩

/-- C8 counterexample: a batch whose first worker hits an `fpocket2`
failure (which the worker re-raises) aborts the whole `preprocess_once`
run with an error — the second, healthy structure's mapping is never
produced, contradicting the claimed per-structure sentinel recording. -/
theorem preprocess_failure_counterexample :
    ToughM1.preprocess_once (fun _ => none) (fun _ => none)
      [(⟨true, none, none⟩, "1abcA"), (⟨false, some [("A", 1)], some [("P10000", ["A"])]⟩, "2xyzB")]
      = .error .fpocketFailed := rfl

/-- C8 amended: only the failures the worker anticipates are converted to
the `'None'` sentinel for that one structure (e.g. a PDB download failure
yields the sentinel row and the batch continues); an `fpocket2` failure is
logged and re-raised by the worker, and any exception escaping a worker is
re-raised by `executor.map` in the parent, aborting the whole batch —
`preprocess_once` succeeds iff every worker returns a row. -/
theorem preprocess_failure_policy :
    (∀ (oracle : String → Option String) (fam : Option (List (String × List String)))
        (c5 : String),
      ToughM1.preprocess_worker oracle ⟨false, none, fam⟩ c5 = .ok (c5, none, "None"))
    ∧ (∀ (clusters : String → Option ℕ) (oracle : String → Option String) (env : WorkerEnv)
        (c5 : String) (jobs : List (WorkerEnv × String)), env.fpocketFails = true →
      ToughM1.preprocess_once clusters oracle ((env, c5) :: jobs) = .error .fpocketFailed)
    ∧ (∀ (clusters : String → Option ℕ) (oracle : String → Option String)
        (jobs : List (WorkerEnv × String)),
      (∃ m, ToughM1.preprocess_once clusters oracle jobs = .ok m)
        ↔ ∀ job ∈ jobs, ∃ r, ToughM1.preprocess_worker oracle job.1 job.2 = .ok r) := by
  refine ⟨fun oracle fam c5 => rfl, fun clusters oracle env c5 jobs h => ?_,
    fun clusters oracle jobs => ?_⟩
  · have hw : ToughM1.preprocess_worker oracle env c5 = .error .fpocketFailed := by
      simp [ToughM1.preprocess_worker, h]
    rw [ToughM1.preprocess_once, ToughM1.preprocess_loop, hw]
  · exact preprocess_loop_ok_iff clusters oracle jobs _

/-- Witness for C8 amended: a caught download failure produces the
sentinel row, and an `fpocket2` failure aborts the batch. -/
theorem preprocess_failure_policy_witness :
    ToughM1.preprocess_worker (fun _ => none) ⟨false, none, none⟩ "1abcA"
      = .ok ("1abcA", none, "None")
    ∧ ToughM1.preprocess_once (fun _ => none) (fun _ => none) [(⟨true, none, none⟩, "1abcA")]
      = .error .fpocketFailed :=
  ⟨preprocess_failure_policy.1 (fun _ => none) none "1abcA",
   preprocess_failure_policy.2.1 (fun _ => none) (fun _ => none) ⟨true, none, none⟩ "1abcA" []
     rfl⟩

end DeeplyTough
